import Mathlib

/-!
Verification development for the income-verification chunked-analysis pipeline
(`src/app/api/analyze-chunked/route.js`).

Shallow embedding conventions:
* JS strings are modelled as lists of code points (`List Nat`), restricted to the
  ASCII behaviour of the regexes actually used by the source (`/\s+/`, `/[^\w\s]/`
  and `String.prototype.toLowerCase`): `\w` is `[A-Za-z0-9_]`, `\s` is the ASCII
  whitespace class, and lower-casing maps `A..Z` to `a..z`.  Non-ASCII code points
  are carried through unchanged; none of the verified claims depend on them.
* Currency amounts are modelled as exact integer cents.  The source stores them as
  JS numbers and formats them with `Number(x).toFixed(2)` when building
  deduplication keys; on cent-precision values that formatting is injective, so the
  key component is modelled by the amount itself.
* The deduplication key `date|amount|description` is modelled as the triple of its
  components rather than the separator-joined string.
-/

/-- JS string, modelled as the list of its code points. -/
abbrev JStr := List Nat

/-- Code points of a Lean string literal, used to write concrete JS strings. -/
def strOf (s : String) : JStr := s.data.map Char.toNat

/-- ASCII whitespace class of the JS `\s` regex class (space, tab, LF, VT, FF, CR). -/
def jsIsSpace (n : Nat) : Bool := n = 32 || n = 9 || n = 10 || n = 11 || n = 12 || n = 13

/-- JS `\w` word-character class: ASCII letters, digits and underscore. -/
def isWordChar (n : Nat) : Bool :=
  (48 ≤ n && n ≤ 57) || (65 ≤ n && n ≤ 90) || (97 ≤ n && n ≤ 122) || n = 95

/-- ASCII upper-case letter. -/
def isUpperAscii (n : Nat) : Bool := 65 ≤ n && n ≤ 90

/-- ASCII decimal digit. -/
def isDigitChar (n : Nat) : Bool := 48 ≤ n && n ≤ 57

/-- ASCII alphanumeric character (underscore excluded). -/
def isAlphaNum (n : Nat) : Bool :=
  (48 ≤ n && n ≤ 57) || (65 ≤ n && n ≤ 90) || (97 ≤ n && n ≤ 122)

/-- ASCII lower-casing of one code point, the `String.prototype.toLowerCase`
behaviour on the ASCII range. -/
def jsLowerChar (n : Nat) : Nat := if 65 ≤ n ∧ n ≤ 90 then n + 32 else n

/-- `s.toLowerCase()`. -/
def lowerStr (s : JStr) : JStr := s.map jsLowerChar

/-- Auxiliary scan for `replace(/\s+/g, ' ')`: the flag records whether the
previous character belonged to a whitespace run already replaced by `' '`. -/
def collapseAux : Bool → JStr → JStr
  | _, [] => []
  | inRun, c :: rest =>
    if jsIsSpace c then
      if inRun then collapseAux true rest else 32 :: collapseAux true rest
    else c :: collapseAux false rest

/-- `s.replace(/\s+/g, ' ')`: each maximal whitespace run becomes one space. -/
def collapseWS (s : JStr) : JStr := collapseAux false s

/-- `s.trim()`: strip leading and trailing whitespace. -/
def trimStr (s : JStr) : JStr :=
  ((s.dropWhile jsIsSpace).reverse.dropWhile jsIsSpace).reverse

/-- `s.replace(/[^\w\s]/g, '')`: keep only word characters and whitespace. -/
def stripNonWord (s : JStr) : JStr := s.filter (fun c => isWordChar c || jsIsSpace c)

/-- The `normalizeDescription` helper of `mergeResults`
(`route.js` lines 291-297): lower-case, collapse whitespace runs to single
spaces, trim, then remove every character that is neither a word character nor
whitespace. -/
def normalizeDescription (desc : JStr) : JStr :=
  stripNonWord (trimStr (collapseWS (lowerStr desc)))

/-- `haystack.startsWith(needle)` on code-point lists. -/
def beginsWith : JStr → JStr → Bool
  | [], _ => true
  | _ :: _, [] => false
  | p :: ps, c :: cs => p = c && beginsWith ps cs

/-- `haystack.includes(needle)`: substring containment. -/
def containsSub (pat : JStr) : JStr → Bool
  | [] => beginsWith pat []
  | c :: cs => beginsWith pat (c :: cs) || containsSub pat cs

/-- The `normalizeCategory` helper of `mergeResults`
(`route.js` lines 299-337): lower-case and trim the label, then test the fixed
substring rules in source order, falling through to the original label. -/
def normalizeCategory (ty : JStr) : JStr :=
  let normalized := trimStr (lowerStr ty)
  if containsSub (strOf "transfer in") normalized || normalized = strOf "transfer in" then
    strOf "Transfer In"
  else if containsSub (strOf "zelle") normalized then strOf "Zelle Transfer"
  else if containsSub (strOf "ach") normalized then strOf "ACH Deposit"
  else if containsSub (strOf "wire") normalized then strOf "Wire Transfer"
  else if containsSub (strOf "venmo") normalized then strOf "Venmo"
  else if containsSub (strOf "cash app") normalized then strOf "Cash App"
  else if containsSub (strOf "paypal") normalized then strOf "PayPal"
  else if containsSub (strOf "bank deposit") normalized || containsSub (strOf "atm") normalized then
    strOf "Bank Deposit"
  else if containsSub (strOf "check") normalized then strOf "Check Deposit"
  else if containsSub (strOf "mobile") normalized then strOf "Mobile Deposit"
  else if containsSub (strOf "direct deposit") normalized then strOf "Direct Deposit"
  else ty

/-- Modelled from the spec: the category rule table of §4.3/§9 as explicit data —
an ordered list of (substring patterns, canonical label) rules.  The order
realizes the documented specificity precedence: `transfer in` is tested before
every other rule and `zelle` before any other transfer-related pattern; `bank
deposit` and `atm` share the `Bank Deposit` label. -/
def specCategoryRules : List (List JStr × JStr) :=
  [ ([strOf "transfer in"], strOf "Transfer In")
  , ([strOf "zelle"], strOf "Zelle Transfer")
  , ([strOf "ach"], strOf "ACH Deposit")
  , ([strOf "wire"], strOf "Wire Transfer")
  , ([strOf "venmo"], strOf "Venmo")
  , ([strOf "cash app"], strOf "Cash App")
  , ([strOf "paypal"], strOf "PayPal")
  , ([strOf "bank deposit", strOf "atm"], strOf "Bank Deposit")
  , ([strOf "check"], strOf "Check Deposit")
  , ([strOf "mobile"], strOf "Mobile Deposit")
  , ([strOf "direct deposit"], strOf "Direct Deposit") ]

/-- Modelled from the spec: first-match evaluation of an ordered rule table; a
rule fires when any of its substring patterns occurs in the prepared label. -/
def applyRules : List (List JStr × JStr) → JStr → JStr → JStr
  | [], _, ty => ty
  | r :: rs, n, ty => if r.1.any (fun p => containsSub p n) then r.2 else applyRules rs n ty

/-- Modelled from the spec: case-insensitive, substring-based, ordered rule-table
normalization; when no rule matches, the original label passes through unchanged
(§4.3, §9). -/
def specNormalizeCategory (ty : JStr) : JStr :=
  applyRules specCategoryRules (trimStr (lowerStr ty)) ty

theorem beginsWith_refl : ∀ s : JStr, beginsWith s s = true := by
  intro s
  induction s with
  | nil => rfl
  | cons c cs ih => simp [beginsWith, ih]

theorem containsSub_self (s : JStr) : containsSub s s = true := by
  cases s with
  | nil => rfl
  | cons c cs => simp [containsSub, beginsWith_refl]

/-- C7: `normalizeCategory` is exactly the case-insensitive, substring-based,
first-match evaluation of the fixed rule table in its specificity-precedence
order (`transfer in` before every other transfer-related rule, `zelle` before
generic transfer terms, `bank deposit`/`atm` to `Bank Deposit`, `check`,
`mobile`, `direct deposit`, `ach`, `wire`, `venmo`/`cash app`/`paypal` as
listed), and when no rule matches the original label passes through
unchanged. -/
theorem normalizeCategory_eq_specRules (ty : JStr) :
    normalizeCategory ty = specNormalizeCategory ty := by
  have hor : ∀ n : JStr, (containsSub (strOf "transfer in") n || decide (n = strOf "transfer in"))
      = containsSub (strOf "transfer in") n := by
    intro n
    cases h : containsSub (strOf "transfer in") n with
    | true => simp
    | false =>
      simp only [Bool.false_or, decide_eq_true_eq, decide_eq_false_iff_not]
      intro he
      rw [he, containsSub_self] at h
      exact Bool.noConfusion h
  simp only [normalizeCategory, specNormalizeCategory, specCategoryRules, applyRules,
    List.any_cons, List.any_nil, Bool.or_false, hor]

/-- Whether no two adjacent characters are both whitespace. -/
def noAdjacentWS : JStr → Bool
  | [] => true
  | [_] => true
  | a :: b :: rest => !(jsIsSpace a && jsIsSpace b) && noAdjacentWS (b :: rest)

/-- Modelled from the spec: the output shape claimed for the description
normalizer — no upper-case letter, no character that is neither alphanumeric nor
whitespace, and no two adjacent whitespace characters (§4.3). -/
def claimedDescriptionShape (s : JStr) : Bool :=
  s.all (fun c => !isUpperAscii c && (isAlphaNum c || jsIsSpace c)) && noAdjacentWS s

theorem mem_of_mem_dropWhile {p : Nat → Bool} {c : Nat} :
    ∀ {l : JStr}, c ∈ l.dropWhile p → c ∈ l := by
  intro l
  induction l with
  | nil => intro h; exact h
  | cons a xs ih =>
    intro h
    rw [List.dropWhile_cons] at h
    by_cases hp : p a = true
    · simp only [hp, if_true] at h
      exact List.mem_cons_of_mem a (ih h)
    · simp only [hp, if_false] at h
      exact h

theorem mem_of_mem_trimStr {c : Nat} {s : JStr} (h : c ∈ trimStr s) : c ∈ s := by
  unfold trimStr at h
  rw [List.mem_reverse] at h
  have h2 := mem_of_mem_dropWhile h
  rw [List.mem_reverse] at h2
  exact mem_of_mem_dropWhile h2

theorem mem_collapseAux {c : Nat} :
    ∀ (b : Bool) (s : JStr), c ∈ collapseAux b s → c = 32 ∨ (c ∈ s ∧ jsIsSpace c = false) := by
  intro b s
  induction s generalizing b with
  | nil => intro h; exact absurd h (List.not_mem_nil c)
  | cons a rest ih =>
    intro h
    unfold collapseAux at h
    by_cases hsp : jsIsSpace a = true
    · simp only [hsp, if_true] at h
      cases hb : b with
      | true =>
        rw [hb] at h
        rcases ih true h with h32 | ⟨hm, hns⟩
        · exact Or.inl h32
        · exact Or.inr ⟨List.mem_cons_of_mem a hm, hns⟩
      | false =>
        rw [hb] at h
        rcases List.mem_cons.mp h with h32 | h'
        · exact Or.inl h32
        · rcases ih true h' with h32 | ⟨hm, hns⟩
          · exact Or.inl h32
          · exact Or.inr ⟨List.mem_cons_of_mem a hm, hns⟩
    · have hsp' : jsIsSpace a = false := by simpa using hsp
      simp only [hsp', if_false, Bool.false_eq_true] at h
      rcases List.mem_cons.mp h with hc | h'
      · exact Or.inr ⟨List.mem_cons.mpr (Or.inl hc), hc ▸ hsp'⟩
      · rcases ih false h' with h32 | ⟨hm, hns⟩
        · exact Or.inl h32
        · exact Or.inr ⟨List.mem_cons_of_mem a hm, hns⟩

theorem isUpperAscii_jsLowerChar (n : Nat) : isUpperAscii (jsLowerChar n) = false := by
  unfold isUpperAscii jsLowerChar
  split
  · simp only [Bool.and_eq_false_iff, decide_eq_false_iff_not]
    omega
  · simp only [Bool.and_eq_false_iff, decide_eq_false_iff_not]
    omega

/-- C8, counterexample: on input `"a_b . c"` the description normalizer keeps the
underscore — which is neither alphanumeric nor whitespace — and, because the
symbol stripping runs after whitespace collapsing, deletes the `'.'` between two
spaces and leaves two adjacent spaces, contradicting the claimed output shape. -/
theorem normalizeDescription_shape_counterexample :
    normalizeDescription (strOf "a_b . c") = strOf "a_b  c" ∧
    claimedDescriptionShape (normalizeDescription (strOf "a_b . c")) = false := by
  decide

/-- C8 (amended): `normalizeDescription` lower-cases, collapses whitespace runs
to single spaces, trims, then strips every character that is neither a word
character (alphanumeric or underscore) nor whitespace; every output character is
therefore a word character or a single space and never an upper-case letter —
but underscores survive and stripping may leave adjacent spaces. -/
theorem normalizeDescription_chars (s : JStr) (c : Nat) (h : c ∈ normalizeDescription s) :
    (isWordChar c = true ∨ c = 32) ∧ isUpperAscii c = false := by
  unfold normalizeDescription stripNonWord at h
  rw [List.mem_filter] at h
  obtain ⟨hmem, hkeep⟩ := h
  have hcol : c ∈ collapseWS (lowerStr s) := mem_of_mem_trimStr hmem
  unfold collapseWS at hcol
  rcases mem_collapseAux false (lowerStr s) hcol with h32 | ⟨hml, hns⟩
  · subst h32
    exact ⟨Or.inr rfl, by decide⟩
  · constructor
    · left
      rcases Bool.or_eq_true_iff.mp hkeep with hw | hs
      · exact hw
      · rw [hns] at hs
        exact Bool.noConfusion hs
    · rw [lowerStr, List.mem_map] at hml
      obtain ⟨d, _, hd⟩ := hml
      rw [← hd]
      exact isUpperAscii_jsLowerChar d

/-- Witness for the amended C8 theorem at the concrete input `"A b"`. -/
theorem normalizeDescription_chars_witness :
    (isWordChar 97 = true ∨ 97 = 32) ∧ isUpperAscii 97 = false :=
  normalizeDescription_chars (strOf "A b") 97 (by decide)

/-- Transaction record, as produced by one chunk's extraction
(`{date, type, source, amount, description}`); `amount` is in exact cents. -/
structure Transaction where
  date : JStr
  type : JStr
  source : JStr
  amount : Int
  description : JStr
deriving DecidableEq

/-- Per-category aggregate `{amount, count}`. -/
structure CatAgg where
  amount : Int
  count : Nat
deriving DecidableEq

/-- Month bucket `{month, total, categories, transactions}`; `categories`
models the JS object as an insertion-ordered association list. -/
structure MonthBucket where
  month : JStr
  total : Int
  categories : List (JStr × CatAgg)
  transactions : List Transaction
deriving DecidableEq

/-- AnalysisResult `{accountNumber, totalIncome, totalTransactions, months}`;
a missing `accountNumber` is modelled by the empty string (the only falsy
string) and a missing `months` field by the empty list, which the source's
`result.months && Array.isArray(result.months)` guard treats identically. -/
structure AnalysisResult where
  accountNumber : JStr
  totalIncome : Int
  totalTransactions : Int
  months : List MonthBucket
deriving DecidableEq

/-- A PartialResult is AnalysisResult-shaped JSON from one chunk. -/
abbrev PartialResult := AnalysisResult

/-- Deduplication key `(date, amount formatted to two decimals, normalized
description)` of `mergeResults` (lines 347-353), as the triple of components. -/
abbrev DedupKey := JStr × Int × JStr

/-- The dedup key of one transaction. -/
def txKey (t : Transaction) : DedupKey :=
  (t.date, t.amount, normalizeDescription t.description)

/-- Category normalization applied when a transaction is folded into a bucket
(lines 364-368 and 388-392); `Number(tx.amount)` is the identity here. -/
def normalizeTx (t : Transaction) : Transaction :=
  { t with type := normalizeCategory t.type }

/-- Dedup keys of a transaction list, in order. -/
def keyList (txs : List Transaction) : List DedupKey := txs.map txKey

/-- Sum of the transactions' amounts (`reduce((sum, tx) => sum + Number(tx.amount), 0)`). -/
def sumAmounts (txs : List Transaction) : Int := (txs.map (·.amount)).sum

/-- One `categories[catType].amount += ...; .count += 1` step, inserting the
`{amount: 0, count: 0}` entry first when the key is new (JS object insertion
order appends new keys at the end). -/
def catBump : List (JStr × CatAgg) → JStr → Int → List (JStr × CatAgg)
  | [], k, amt => [(k, ⟨amt, 1⟩)]
  | (q, a) :: rest, k, amt =>
    if q = k then (q, ⟨a.amount + amt, a.count + 1⟩) :: rest
    else (q, a) :: catBump rest k amt

/-- Rebuild the category aggregates from a transaction list (lines 377-385 and
394-401). -/
def buildCategories (txs : List Transaction) : List (JStr × CatAgg) :=
  txs.foldl (fun m t => catBump m t.type t.amount) []

/-- First registration of a month label (lines 387-408): normalize every
transaction, rebuild categories and total from the normalized list. -/
def newBucket (mo : MonthBucket) : MonthBucket :=
  let txs := mo.transactions.map normalizeTx
  { month := mo.month
    total := sumAmounts txs
    categories := buildCategories txs
    transactions := txs }

/-- The incoming-transaction loop of the existing-month branch (lines 356-372):
append each incoming transaction (normalized) only when its dedup key is not in
the evolving key set. -/
def foldIncoming : List Transaction → List DedupKey → List Transaction → List Transaction
  | txs, _, [] => txs
  | txs, ks, t :: rest =>
    if txKey t ∈ ks then foldIncoming txs ks rest
    else foldIncoming (txs ++ [normalizeTx t]) (txKey t :: ks) rest

/-- Merge a month entry into an existing bucket (lines 344-385): dedup-append
the incoming transactions, then recompute `total` and `categories` from the
deduplicated list. -/
def mergeMonth (b mo : MonthBucket) : MonthBucket :=
  let txs := foldIncoming b.transactions (keyList b.transactions) mo.transactions
  { month := b.month
    total := sumAmounts txs
    categories := buildCategories txs
    transactions := txs }

/-- Fold one month entry into the month map (`monthMap.has`/`get`/`set`,
lines 342-409): merge in place when the label exists, append a new bucket
otherwise. -/
def updateMonth : List MonthBucket → MonthBucket → List MonthBucket
  | [], mo => [newBucket mo]
  | b :: rest, mo =>
    if b.month = mo.month then mergeMonth b mo :: rest
    else b :: updateMonth rest mo

/-- Fold every month entry of every partial, in order (lines 339-412). -/
def foldPartials (l : List PartialResult) : List MonthBucket :=
  l.foldl (fun map r => r.months.foldl updateMonth map) []

/-- English month names, lower-case. -/
def monthNamesList : List JStr :=
  [strOf "january", strOf "february", strOf "march", strOf "april",
   strOf "may", strOf "june", strOf "july", strOf "august",
   strOf "september", strOf "october", strOf "november", strOf "december"]

/-- Decimal value of the digit characters of a string. -/
def natFromDigits (s : JStr) : Nat := s.foldl (fun a d => a * 10 + (d - 48)) 0

/-- Chronological rank of a month label, modelling the `new Date(a.month)`
comparison of the final sort (lines 414-418) on labels of the form
`"<MonthName> <Year>"`; the verified claims use only that the sort permutes
the buckets. -/
def parseMonthValue (m : JStr) : Nat :=
  match List.findIdx? (fun nm => beginsWith nm (lowerStr m)) monthNamesList with
  | some i => natFromDigits ((lowerStr m).filter isDigitChar) * 12 + i
  | none => 0

/-- Stable sort of the buckets by descending chronological order
(`sort((a, b) => dateB - dateA)`). -/
def sortMonths (bs : List MonthBucket) : List MonthBucket :=
  List.insertionSort (fun a b => parseMonthValue b.month ≤ parseMonthValue a.month) bs

/-- `results[0].accountNumber || 'N/A'`: the first partial's account number
with the JS-falsy empty string replaced by the `"N/A"` sentinel. -/
def orNA (s : JStr) : JStr := if s = [] then strOf "N/A" else s

/-- The merge of at least one partial: a singleton list is returned unchanged
(line 280); otherwise fold all months, sort, and recompute grand totals
(lines 282-425). -/
def mergeCore : PartialResult → List PartialResult → AnalysisResult
  | r, [] => r
  | r0, r1 :: rest =>
    let sorted := sortMonths (foldPartials (r0 :: r1 :: rest))
    { accountNumber := orNA r0.accountNumber
      totalIncome := (sorted.map (·.total)).sum
      totalTransactions := (sorted.map (fun b => (b.transactions.length : Int))).sum
      months := sorted }

/-- `mergeResults` (lines 278-426): `null` on an empty list, the sole partial
unchanged on a singleton, the folded merge otherwise. -/
def mergeResults : List PartialResult → Option AnalysisResult
  | [] => none
  | r :: rs => some (mergeCore r rs)

/-- Transactions of every bucket carrying month label `m`, in order. -/
def mapMonthTxs (bs : List MonthBucket) (m : JStr) : List Transaction :=
  (bs.filter fun b => decide (b.month = m)).flatMap (·.transactions)

/-- Transactions of month `m` in a merge output (`[]` for the `null` output). -/
def monthTxs (res : Option AnalysisResult) (m : JStr) : List Transaction :=
  match res with
  | none => []
  | some a => mapMonthTxs a.months m

/-- Number of transactions with dedup key `k` in a transaction list. -/
def keyCount (txs : List Transaction) (k : DedupKey) : Nat :=
  ((keyList txs).filter (fun q => decide (q = k))).length

/-- Lookup of one category label in a categories association list. -/
def catLookup (m : List (JStr × CatAgg)) (k : JStr) : Option CatAgg :=
  (m.find? (fun e => decide (e.1 = k))).map (·.2)

/-- Number of transactions whose type equals the label `c`. -/
def typeCount (txs : List Transaction) (c : JStr) : Nat :=
  (txs.filter fun t => decide (t.type = c)).length

/-- Summed amount of the transactions whose type equals the label `c`. -/
def typeSum (txs : List Transaction) (c : JStr) : Int :=
  ((txs.filter fun t => decide (t.type = c)).map (·.amount)).sum

/-- A dedup key `k` is reported for month `m` by some partial of the list. -/
def reported (l : List PartialResult) (m : JStr) (k : DedupKey) : Prop :=
  ∃ p ∈ l, ∃ e ∈ p.months, e.month = m ∧ k ∈ keyList e.transactions

instance (l : List PartialResult) (m : JStr) (k : DedupKey) : Decidable (reported l m k) := by
  unfold reported
  infer_instance

/-- C10: a one-element input list is returned by `mergeResults` unchanged — no
normalization, deduplication or aggregate recomputation touches it. -/
theorem mergeResults_singleton (p : PartialResult) : mergeResults [p] = some p := rfl

/-- Month label shared by the concrete counterexample inputs. -/
def janLabel : JStr := strOf "January 2024"

/-- Concrete partial whose `accountNumber` is the `"N/A"` sentinel. -/
def acctPartialNA : PartialResult :=
  { accountNumber := strOf "N/A", totalIncome := 0, totalTransactions := 0, months := [] }

/-- Concrete partial supplying the account number `"1514"`. -/
def acctPartial1514 : PartialResult :=
  { accountNumber := strOf "1514", totalIncome := 0, totalTransactions := 0, months := [] }

/-- C6, counterexample: the first partial reports the `"N/A"` sentinel and the
second a real account number, yet the merge keeps `"N/A"` — the fold never
scans past `results[0].accountNumber`. -/
theorem accountNumber_counterexample :
    (mergeResults [acctPartialNA, acctPartial1514]).map (·.accountNumber) = some (strOf "N/A") ∧
    acctPartial1514.accountNumber = strOf "1514" ∧
    strOf "N/A" ≠ strOf "1514" := by
  decide

/-- C6 (amended): for two or more partials the merged `accountNumber` is the
first partial's `accountNumber` — with the JS-falsy empty value replaced by
`"N/A"` — regardless of what later partials supply; a singleton input is
returned unchanged. -/
theorem mergeResults_accountNumber (r0 r1 : PartialResult) (rest : List PartialResult) :
    (mergeResults (r0 :: r1 :: rest)).map (·.accountNumber) = some (orNA r0.accountNumber) := rfl

/-- Concrete transaction used by the dedup counterexample. -/
def dupTx : Transaction :=
  { date := strOf "2024-01-15", type := strOf "ach", source := strOf "HYCITE",
    amount := 100000, description := strOf "ACH DEPOSIT PPD HYCITE" }

/-- Concrete second transaction with a different dedup key. -/
def otherTx : Transaction :=
  { date := strOf "2024-01-20", type := strOf "zelle", source := strOf "BOB",
    amount := 5000, description := strOf "ZELLE FROM BOB" }

/-- Partial whose single month entry reports the same transaction twice. -/
def dupPartial : PartialResult :=
  { accountNumber := strOf "1514", totalIncome := 0, totalTransactions := 0,
    months := [{ month := janLabel, total := 0, categories := [],
                 transactions := [dupTx, dupTx] }] }

/-- Partial contributing one further, distinct transaction for the same month. -/
def otherPartial : PartialResult :=
  { accountNumber := strOf "1514", totalIncome := 0, totalTransactions := 0,
    months := [{ month := janLabel, total := 0, categories := [],
                 transactions := [otherTx] }] }

/-- C1, counterexample: a duplicate pair inside the first-seen month entry is
never deduplicated — the merged January bucket holds the key twice, not exactly
once. -/
theorem dedup_counterexample :
    keyCount (monthTxs (mergeResults [dupPartial, otherPartial]) janLabel) (txKey dupTx) = 2 := by
  decide

/-- Concrete month bucket whose self-reported total disagrees with its
transactions. -/
def inconsistentBucket : MonthBucket :=
  { month := janLabel, total := 999, categories := [],
    transactions := [{ date := strOf "2024-01-15", type := strOf "Other",
                       source := strOf "X", amount := 100,
                       description := strOf "DEPOSIT" }] }

/-- Concrete partial carrying the inconsistent bucket. -/
def inconsistentPartial : PartialResult :=
  { accountNumber := strOf "1514", totalIncome := 999, totalTransactions := 1,
    months := [inconsistentBucket] }

/-- C2, counterexample: a singleton input is passed through unchanged (line
280), so with exactly one partial the merged output can carry a month bucket
whose `total` is not the sum of its transactions' amounts. -/
theorem aggregates_counterexample :
    mergeResults [inconsistentPartial] = some inconsistentPartial ∧
    inconsistentBucket ∈ inconsistentPartial.months ∧
    inconsistentBucket.total ≠ sumAmounts inconsistentBucket.transactions := by
  decide

/-- Transaction reported with type `"ach"` by one chunk. -/
def firstSeenTx : Transaction :=
  { date := strOf "2024-01-15", type := strOf "ach", source := strOf "X",
    amount := 100, description := strOf "pay" }

/-- The same real-world event (equal dedup key) reported with type `"check"`
and a cosmetically different description by another chunk. -/
def secondSeenTx : Transaction :=
  { date := strOf "2024-01-15", type := strOf "check", source := strOf "X",
    amount := 100, description := strOf "pay!!" }

/-- Partial reporting the `"ach"`-typed record. -/
def achPartial : PartialResult :=
  { accountNumber := strOf "1514", totalIncome := 0, totalTransactions := 0,
    months := [{ month := janLabel, total := 0, categories := [],
                 transactions := [firstSeenTx] }] }

/-- Partial reporting the `"check"`-typed record with the same dedup key. -/
def checkPartial : PartialResult :=
  { accountNumber := strOf "1514", totalIncome := 0, totalTransactions := 0,
    months := [{ month := janLabel, total := 0, categories := [],
                 transactions := [secondSeenTx] }] }

/-- C9, counterexample: permuting the fold order changes the per-month
transaction SET, because only the first-seen record of a dedup key is stored:
one order keeps the `ACH Deposit` record, the other the `Check Deposit`
record. -/
theorem orderIndependence_counterexample :
    List.Perm [achPartial, checkPartial] [checkPartial, achPartial] ∧
    normalizeTx firstSeenTx ∈ monthTxs (mergeResults [achPartial, checkPartial]) janLabel ∧
    normalizeTx firstSeenTx ∉ monthTxs (mergeResults [checkPartial, achPartial]) janLabel := by
  refine ⟨List.Perm.swap checkPartial achPartial [], by decide, by decide⟩

theorem txKey_normalizeTx (t : Transaction) : txKey (normalizeTx t) = txKey t := rfl

theorem keyList_map_normalizeTx (txs : List Transaction) :
    keyList (txs.map normalizeTx) = keyList txs := by
  unfold keyList
  rw [List.map_map]
  rfl

theorem foldIncoming_mem_keys :
    ∀ (inc txs : List Transaction) (ks : List DedupKey),
      (∀ q, q ∈ ks ↔ q ∈ keyList txs) →
      ∀ q, (q ∈ keyList (foldIncoming txs ks inc) ↔ q ∈ keyList txs ∨ q ∈ keyList inc) := by
  intro inc
  induction inc with
  | nil =>
    intro txs ks hks q
    simp [foldIncoming, keyList]
  | cons t rest ih =>
    intro txs ks hks q
    unfold foldIncoming
    by_cases hmem : txKey t ∈ ks
    · simp only [hmem, if_true]
      rw [ih txs ks hks q]
      have ht : txKey t ∈ keyList txs := (hks (txKey t)).mp hmem
      constructor
      · rintro (h | h)
        · exact Or.inl h
        · exact Or.inr (List.mem_cons_of_mem _ h)
      · rintro (h | h)
        · exact Or.inl h
        · rcases List.mem_cons.mp h with he | h'
          · exact Or.inl (he ▸ ht)
          · exact Or.inr h'
    · simp only [hmem, if_false]
      have hks' : ∀ q, q ∈ txKey t :: ks ↔ q ∈ keyList (txs ++ [normalizeTx t]) := by
        intro q
        unfold keyList
        rw [List.map_append]
        simp only [List.mem_cons, List.mem_append, List.map_cons, List.map_nil,
          List.mem_singleton, txKey_normalizeTx]
        rw [← keyList]
        constructor
        · rintro (he | h)
          · exact Or.inr (by simp [he])
          · exact Or.inl ((hks q).mp h)
        · rintro (h | h)
          · exact Or.inr ((hks q).mpr h)
          · simp at h
            exact Or.inl h
      rw [ih _ _ hks' q]
      unfold keyList
      rw [List.map_append]
      simp only [List.mem_append, List.map_cons, List.map_nil, List.mem_singleton,
        txKey_normalizeTx, List.mem_cons]
      rw [← keyList, ← keyList]
      tauto

theorem foldIncoming_nodup :
    ∀ (inc txs : List Transaction) (ks : List DedupKey),
      (∀ q, q ∈ ks ↔ q ∈ keyList txs) → (keyList txs).Nodup →
      (keyList (foldIncoming txs ks inc)).Nodup := by
  intro inc
  induction inc with
  | nil => intro txs ks hks hnd; exact hnd
  | cons t rest ih =>
    intro txs ks hks hnd
    unfold foldIncoming
    by_cases hmem : txKey t ∈ ks
    · simp only [hmem, if_true]
      exact ih txs ks hks hnd
    · simp only [hmem, if_false]
      have hnotin : txKey t ∉ keyList txs := fun h => hmem ((hks (txKey t)).mpr h)
      have hks' : ∀ q, q ∈ txKey t :: ks ↔ q ∈ keyList (txs ++ [normalizeTx t]) := by
        intro q
        unfold keyList
        rw [List.map_append]
        simp only [List.mem_cons, List.mem_append, List.map_cons, List.map_nil,
          List.mem_singleton, txKey_normalizeTx]
        rw [← keyList]
        constructor
        · rintro (he | h)
          · exact Or.inr (by simp [he])
          · exact Or.inl ((hks q).mp h)
        · rintro (h | h)
          · exact Or.inr ((hks q).mpr h)
          · simp at h
            exact Or.inl h
      apply ih _ _ hks'
      unfold keyList
      rw [List.map_append]
      simp only [List.map_cons, List.map_nil, txKey_normalizeTx]
      rw [List.nodup_append]
      refine ⟨hnd, List.nodup_singleton _, ?_⟩
      intro q hq hq'
      simp at hq'
      exact hnotin (hq' ▸ hq)

theorem mergeMonth_mem_keys (b mo : MonthBucket) (q : DedupKey) :
    q ∈ keyList (mergeMonth b mo).transactions ↔
      q ∈ keyList b.transactions ∨ q ∈ keyList mo.transactions := by
  unfold mergeMonth
  exact foldIncoming_mem_keys mo.transactions b.transactions (keyList b.transactions)
    (fun _ => Iff.rfl) q

theorem newBucket_keys (mo : MonthBucket) :
    keyList (newBucket mo).transactions = keyList mo.transactions := by
  unfold newBucket
  exact keyList_map_normalizeTx mo.transactions

theorem mapMonthTxs_cons (b : MonthBucket) (bs : List MonthBucket) (m : JStr) :
    mapMonthTxs (b :: bs) m =
      (if b.month = m then b.transactions else []) ++ mapMonthTxs bs m := by
  unfold mapMonthTxs
  by_cases h : b.month = m
  · simp [h]
  · simp [h]

theorem updateMonth_keys (mo : MonthBucket) (m : JStr) (q : DedupKey) :
    ∀ map : List MonthBucket,
      (q ∈ keyList (mapMonthTxs (updateMonth map mo) m) ↔
        q ∈ keyList (mapMonthTxs map m) ∨ (mo.month = m ∧ q ∈ keyList mo.transactions)) := by
  intro map
  induction map with
  | nil =>
    have hnil : mapMonthTxs ([] : List MonthBucket) m = [] := rfl
    unfold updateMonth
    rw [mapMonthTxs_cons, hnil, List.append_nil]
    by_cases h : mo.month = m
    · rw [if_pos (show (newBucket mo).month = m from h), newBucket_keys]
      constructor
      · intro hq; exact Or.inr ⟨h, hq⟩
      · rintro (hq | ⟨_, hq⟩)
        · exact absurd hq (by simp [keyList])
        · exact hq
    · rw [if_neg (show ¬ (newBucket mo).month = m from h)]
      constructor
      · intro hq; exact absurd hq (by simp [keyList])
      · rintro (hq | ⟨hmo, _⟩)
        · exact hq
        · exact absurd hmo h
  | cons b rest ih =>
    unfold updateMonth
    by_cases hb : b.month = mo.month
    · simp only [hb, if_true]
      rw [mapMonthTxs_cons, mapMonthTxs_cons]
      by_cases hm : b.month = m
      · have hm2 : (mergeMonth b mo).month = m := hm
        have hmo : mo.month = m := hb ▸ hm
        simp only [hm2, hm, if_true]
        unfold keyList
        rw [List.map_append, List.map_append]
        simp only [List.mem_append]
        rw [← keyList, ← keyList, ← keyList, ← keyList]
        rw [mergeMonth_mem_keys]
        simp [hmo]
        tauto
      · have hm2 : ¬ (mergeMonth b mo).month = m := hm
        have hmo : ¬ mo.month = m := by rw [← hb]; exact hm
        simp [hm2, hm, hmo]
    · simp only [hb, if_false]
      rw [mapMonthTxs_cons, mapMonthTxs_cons]
      by_cases hm : b.month = m
      · simp only [hm, if_true]
        unfold keyList
        rw [List.map_append, List.map_append]
        simp only [List.mem_append]
        rw [← keyList, ← keyList]
        rw [ih]
        tauto
      · simp only [hm, if_false, List.nil_append]
        exact ih

theorem entriesFold_keys (m : JStr) (q : DedupKey) :
    ∀ (entries : List MonthBucket) (map : List MonthBucket),
      (q ∈ keyList (mapMonthTxs (entries.foldl updateMonth map) m) ↔
        q ∈ keyList (mapMonthTxs map m) ∨
          ∃ e ∈ entries, e.month = m ∧ q ∈ keyList e.transactions) := by
  intro entries
  induction entries with
  | nil => intro map; simp
  | cons e rest ih =>
    intro map
    rw [List.foldl_cons, ih (updateMonth map e), updateMonth_keys]
    simp only [List.mem_cons]
    constructor
    · rintro ((h | h) | ⟨e', he', h⟩)
      · exact Or.inl h
      · exact Or.inr ⟨e, Or.inl rfl, h⟩
      · exact Or.inr ⟨e', Or.inr he', h⟩
    · rintro (h | ⟨e', he' | he', h⟩)
      · exact Or.inl (Or.inl h)
      · exact Or.inl (Or.inr (he' ▸ h))
      · exact Or.inr ⟨e', he', h⟩

theorem foldPartials_eq (l : List PartialResult) :
    foldPartials l = (l.flatMap (·.months)).foldl updateMonth [] := by
  unfold foldPartials
  suffices h : ∀ (ls : List PartialResult) (acc : List MonthBucket),
      ls.foldl (fun map r => r.months.foldl updateMonth map) acc =
        (ls.flatMap (·.months)).foldl updateMonth acc from h l []
  intro ls
  induction ls with
  | nil => intro acc; rfl
  | cons r rest ih =>
    intro acc
    rw [List.foldl_cons, ih, List.flatMap_cons, List.foldl_append]

theorem mapMonthTxs_keys (bs : List MonthBucket) (m : JStr) (q : DedupKey) :
    q ∈ keyList (mapMonthTxs bs m) ↔
      ∃ b ∈ bs, b.month = m ∧ q ∈ keyList b.transactions := by
  unfold mapMonthTxs keyList
  simp only [List.mem_map, List.mem_flatMap, List.mem_filter, decide_eq_true_eq]
  constructor
  · rintro ⟨t, ⟨b, ⟨hb, hbm⟩, ht⟩, hk⟩
    exact ⟨b, hb, hbm, t, ht, hk⟩
  · rintro ⟨b, hb, hbm, t, ht, hk⟩
    exact ⟨t, ⟨b, ⟨hb, hbm⟩, ht⟩, hk⟩

theorem mergedKeys_mem (l : List PartialResult) (m : JStr) (q : DedupKey) :
    q ∈ keyList (monthTxs (mergeResults l) m) ↔ reported l m q := by
  match l with
  | [] =>
    unfold mergeResults monthTxs reported
    simp [keyList]
  | [p] =>
    unfold mergeResults mergeCore monthTxs reported
    rw [mapMonthTxs_keys]
    simp
  | r0 :: r1 :: rest =>
    unfold mergeResults mergeCore monthTxs
    simp only
    rw [mapMonthTxs_keys]
    have hperm := List.perm_insertionSort
      (fun a b : MonthBucket => parseMonthValue b.month ≤ parseMonthValue a.month)
      (foldPartials (r0 :: r1 :: rest))
    have hstep : ∀ b : MonthBucket,
        (b ∈ sortMonths (foldPartials (r0 :: r1 :: rest))) ↔
          b ∈ foldPartials (r0 :: r1 :: rest) := fun b => hperm.mem_iff
    constructor
    · rintro ⟨b, hb, hrest⟩
      have hb' : b ∈ foldPartials (r0 :: r1 :: rest) := (hstep b).mp hb
      have : q ∈ keyList (mapMonthTxs (foldPartials (r0 :: r1 :: rest)) m) :=
        (mapMonthTxs_keys _ m q).mpr ⟨b, hb', hrest⟩
      rw [foldPartials_eq, entriesFold_keys] at this
      rcases this with h | ⟨e, he, hrest'⟩
      · exact absurd h (by simp [mapMonthTxs, keyList])
      · rw [List.mem_flatMap] at he
        obtain ⟨p, hp, hep⟩ := he
        exact ⟨p, hp, e, hep, hrest'⟩
    · rintro ⟨p, hp, e, hep, hrest'⟩
      have : q ∈ keyList (mapMonthTxs (foldPartials (r0 :: r1 :: rest)) m) := by
        rw [foldPartials_eq, entriesFold_keys]
        exact Or.inr ⟨e, List.mem_flatMap.mpr ⟨p, hp, hep⟩, hrest'⟩
      rcases (mapMonthTxs_keys _ m q).mp this with ⟨b, hb, hrest⟩
      exact ⟨b, (hstep b).mpr hb, hrest⟩

/-- C9 (amended): for any two fold orders of the same multiset of
PartialResults and any month label, the merged bucket holds the same set of
dedup KEYS — which real-world events appear is order-independent — though the
stored records themselves may differ because the first-seen report of a key
wins. -/
theorem mergedKeys_perm (l1 l2 : List PartialResult) (hp : l1.Perm l2) (m : JStr) (q : DedupKey) :
    (q ∈ keyList (monthTxs (mergeResults l1) m) ↔ q ∈ keyList (monthTxs (mergeResults l2) m)) := by
  rw [mergedKeys_mem, mergedKeys_mem]
  unfold reported
  constructor
  · rintro ⟨p, hpmem, hrest⟩
    exact ⟨p, hp.mem_iff.mp hpmem, hrest⟩
  · rintro ⟨p, hpmem, hrest⟩
    exact ⟨p, hp.mem_iff.mpr hpmem, hrest⟩

/-- Witness for the amended C9 theorem at the two-element swap of concrete
partials. -/
theorem mergedKeys_perm_witness :
    (txKey firstSeenTx ∈ keyList (monthTxs (mergeResults [achPartial, checkPartial]) janLabel) ↔
      txKey firstSeenTx ∈ keyList (monthTxs (mergeResults [checkPartial, achPartial]) janLabel)) :=
  mergedKeys_perm [achPartial, checkPartial] [checkPartial, achPartial]
    (List.Perm.swap checkPartial achPartial []) janLabel (txKey firstSeenTx)

/-- Month labels of a bucket list, in order. -/
def labels (bs : List MonthBucket) : List JStr := bs.map (·.month)

theorem updateMonth_labels (mo : MonthBucket) :
    ∀ map : List MonthBucket,
      labels (updateMonth map mo) =
        if mo.month ∈ labels map then labels map else labels map ++ [mo.month] := by
  intro map
  induction map with
  | nil => simp [updateMonth, labels, newBucket]
  | cons b rest ih =>
    unfold updateMonth
    by_cases hb : b.month = mo.month
    · have hmem : mo.month ∈ labels (b :: rest) := by simp [labels, hb.symm]
      simp only [hb, if_true, hmem]
      have : (mergeMonth b mo).month = b.month := rfl
      simp [labels, this]
    · have hiff : mo.month ∈ labels (b :: rest) ↔ mo.month ∈ labels rest := by
        simp only [labels, List.map_cons, List.mem_cons]
        constructor
        · rintro (h | h)
          · exact absurd h.symm hb
          · exact h
        · exact Or.inr
      simp only [hb, if_false]
      by_cases hmem : mo.month ∈ labels rest
      · rw [if_pos (hiff.mpr hmem)]
        have hrec : labels (updateMonth rest mo) = labels rest := by rw [ih, if_pos hmem]
        simp only [labels] at hrec
        simp [labels, hrec]
      · rw [if_neg (fun h => hmem (hiff.mp h))]
        have hrec : labels (updateMonth rest mo) = labels rest ++ [mo.month] := by
          rw [ih, if_neg hmem]
        simp only [labels] at hrec
        simp [labels, hrec]

theorem updateMonth_labels_nodup (mo : MonthBucket) (map : List MonthBucket)
    (h : (labels map).Nodup) : (labels (updateMonth map mo)).Nodup := by
  rw [updateMonth_labels]
  by_cases hmem : mo.month ∈ labels map
  · rwa [if_pos hmem]
  · rw [if_neg hmem, List.nodup_append]
    refine ⟨h, List.nodup_singleton _, ?_⟩
    intro a ha ha'
    simp at ha'
    exact hmem (ha' ▸ ha)

/-- Every bucket of the list has duplicate-free dedup keys. -/
def bucketKeysNodup (bs : List MonthBucket) : Prop :=
  ∀ b ∈ bs, (keyList b.transactions).Nodup

theorem mergeMonth_nodup (b mo : MonthBucket) (h : (keyList b.transactions).Nodup) :
    (keyList (mergeMonth b mo).transactions).Nodup := by
  unfold mergeMonth
  exact foldIncoming_nodup mo.transactions b.transactions (keyList b.transactions)
    (fun _ => Iff.rfl) h

theorem updateMonth_keysNodup (mo : MonthBucket) (hmo : (keyList mo.transactions).Nodup) :
    ∀ map : List MonthBucket, bucketKeysNodup map → bucketKeysNodup (updateMonth map mo) := by
  intro map
  induction map with
  | nil =>
    intro _ b hb
    simp only [updateMonth, List.mem_singleton] at hb
    rw [hb, newBucket_keys]
    exact hmo
  | cons c rest ih =>
    intro hinv b hb
    unfold updateMonth at hb
    by_cases hc : c.month = mo.month
    · rw [if_pos hc] at hb
      rcases List.mem_cons.mp hb with he | hmem
      · rw [he]
        exact mergeMonth_nodup c mo (hinv c (List.mem_cons_self c rest))
      · exact hinv b (List.mem_cons_of_mem c hmem)
    · rw [if_neg hc] at hb
      rcases List.mem_cons.mp hb with he | hmem
      · rw [he]
        exact hinv c (List.mem_cons_self c rest)
      · exact ih (fun x hx => hinv x (List.mem_cons_of_mem c hx)) b hmem

theorem entriesFold_invariants :
    ∀ (entries map : List MonthBucket),
      (labels map).Nodup → bucketKeysNodup map →
      (∀ e ∈ entries, (keyList e.transactions).Nodup) →
      ((labels (entries.foldl updateMonth map)).Nodup ∧
        bucketKeysNodup (entries.foldl updateMonth map)) := by
  intro entries
  induction entries with
  | nil => intro map h1 h2 _; exact ⟨h1, h2⟩
  | cons e rest ih =>
    intro map h1 h2 hents
    rw [List.foldl_cons]
    exact ih (updateMonth map e)
      (updateMonth_labels_nodup e map h1)
      (updateMonth_keysNodup e (hents e (List.mem_cons_self e rest)) map h2)
      (fun x hx => hents x (List.mem_cons_of_mem e hx))

theorem mapMonthTxs_eq_nil (m : JStr) :
    ∀ bs : List MonthBucket, (∀ b ∈ bs, ¬ b.month = m) → mapMonthTxs bs m = [] := by
  intro bs
  induction bs with
  | nil => intro _; rfl
  | cons b rest ih =>
    intro h
    rw [mapMonthTxs_cons, if_neg (h b (List.mem_cons_self b rest)), List.nil_append]
    exact ih (fun x hx => h x (List.mem_cons_of_mem b hx))

theorem mapMonthTxs_keys_nodup (m : JStr) :
    ∀ bs : List MonthBucket, (labels bs).Nodup → bucketKeysNodup bs →
      (keyList (mapMonthTxs bs m)).Nodup := by
  intro bs
  induction bs with
  | nil => intro _ _; simp [mapMonthTxs, keyList]
  | cons b rest ih =>
    intro h1 h2
    have h1' : (labels rest).Nodup ∧ b.month ∉ labels rest := by
      simp only [labels, List.map_cons, List.nodup_cons] at h1
      exact ⟨h1.2, h1.1⟩
    rw [mapMonthTxs_cons]
    by_cases hm : b.month = m
    · rw [if_pos hm]
      have hrest : mapMonthTxs rest m = [] := by
        apply mapMonthTxs_eq_nil
        intro x hx hxm
        exact h1'.2 (by
          rw [show b.month = x.month from hm.trans hxm.symm]
          exact List.mem_map_of_mem (·.month) hx)
      rw [hrest, List.append_nil]
      exact h2 b (List.mem_cons_self b rest)
    · rw [if_neg hm, List.nil_append]
      exact ih h1'.1 (fun x hx => h2 x (List.mem_cons_of_mem b hx))

theorem length_filter_eq_zero {α : Type} [DecidableEq α] :
    ∀ (l : List α) (a : α), a ∉ l → (l.filter (fun x => decide (x = a))).length = 0 := by
  intro l
  induction l with
  | nil => intro a _; rfl
  | cons x xs ih =>
    intro a ha
    rw [List.filter_cons]
    have he : ¬ x = a := fun h => ha (h ▸ List.mem_cons_self x xs)
    simp only [he, decide_eq_true_eq, if_false, Bool.false_eq_true]
    exact ih a (fun h => ha (List.mem_cons_of_mem x h))

theorem length_filter_eq_one {α : Type} [DecidableEq α] :
    ∀ (l : List α) (a : α), l.Nodup → a ∈ l → (l.filter (fun x => decide (x = a))).length = 1 := by
  intro l
  induction l with
  | nil => intro a _ ha; exact absurd ha (List.not_mem_nil a)
  | cons x xs ih =>
    intro a hnd ha
    rcases List.nodup_cons.mp hnd with ⟨hx, hxs⟩
    rw [List.filter_cons]
    by_cases he : x = a
    · subst he
      simp only [decide_eq_true_eq, eq_self_iff_true, if_true, List.length_cons]
      rw [length_filter_eq_zero xs x hx]
    · simp only [he, decide_eq_true_eq, if_false, Bool.false_eq_true]
      rcases List.mem_cons.mp ha with h | h
      · exact absurd h.symm he
      · exact ih a hxs h

/-- C1 (amended): for at least two partials whose month entries are internally
free of dedup-key duplicates, each month bucket of the merged output contains a
transaction with key `k` exactly once when some partial reported `k` for that
month, and never otherwise — independent of how many partials reported it and
of the fold order. -/
theorem mergeResults_dedup (l : List PartialResult) (m : JStr) (k : DedupKey)
    (hlen : 2 ≤ l.length)
    (hnd : ∀ p ∈ l, ∀ e ∈ p.months, (keyList e.transactions).Nodup) :
    keyCount (monthTxs (mergeResults l) m) k = if reported l m k then 1 else 0 := by
  match l with
  | [] => simp at hlen
  | [p] => simp at hlen
  | r0 :: r1 :: rest =>
    have hker : (keyList (monthTxs (mergeResults (r0 :: r1 :: rest)) m)).Nodup := by
      have hperm := List.perm_insertionSort
        (fun a b : MonthBucket => parseMonthValue b.month ≤ parseMonthValue a.month)
        (foldPartials (r0 :: r1 :: rest))
      have hents : ∀ e ∈ (r0 :: r1 :: rest).flatMap (·.months),
          (keyList e.transactions).Nodup := by
        intro e he
        rw [List.mem_flatMap] at he
        obtain ⟨p, hp, hep⟩ := he
        exact hnd p hp e hep
      have hinv := entriesFold_invariants ((r0 :: r1 :: rest).flatMap (·.months)) []
        (by simp [labels]) (by intro b hb; exact absurd hb (List.not_mem_nil b)) hents
      rw [← foldPartials_eq] at hinv
      have hlab : (labels (sortMonths (foldPartials (r0 :: r1 :: rest)))).Nodup := by
        have hp2 := hperm.map (fun b : MonthBucket => b.month)
        exact hp2.nodup_iff.mpr hinv.1
      have hbuck : bucketKeysNodup (sortMonths (foldPartials (r0 :: r1 :: rest))) :=
        fun b hb => hinv.2 b (hperm.mem_iff.mp hb)
      exact mapMonthTxs_keys_nodup m _ hlab hbuck
    unfold keyCount
    by_cases hrep : reported (r0 :: r1 :: rest) m k
    · rw [if_pos hrep]
      exact length_filter_eq_one _ k hker ((mergedKeys_mem (r0 :: r1 :: rest) m k).mpr hrep)
    · rw [if_neg hrep]
      exact length_filter_eq_zero _ k
        (fun hmem => hrep ((mergedKeys_mem (r0 :: r1 :: rest) m k).mp hmem))

/-- Witness for the amended C1 theorem at two concrete duplicate-free
partials. -/
theorem mergeResults_dedup_witness :
    keyCount (monthTxs (mergeResults [achPartial, otherPartial]) janLabel) (txKey firstSeenTx) =
      if reported [achPartial, otherPartial] janLabel (txKey firstSeenTx) then 1 else 0 :=
  mergeResults_dedup [achPartial, otherPartial] janLabel (txKey firstSeenTx)
    (by decide) (by decide)

/-- A bucket whose `total` and `categories` were recomputed from its own
transaction list. -/
def goodBucket (b : MonthBucket) : Prop :=
  b.total = sumAmounts b.transactions ∧ b.categories = buildCategories b.transactions

theorem newBucket_good (mo : MonthBucket) : goodBucket (newBucket mo) :=
  ⟨rfl, rfl⟩

theorem mergeMonth_good (b mo : MonthBucket) : goodBucket (mergeMonth b mo) :=
  ⟨rfl, rfl⟩

theorem updateMonth_good (mo : MonthBucket) :
    ∀ map : List MonthBucket, (∀ b ∈ map, goodBucket b) →
      ∀ b ∈ updateMonth map mo, goodBucket b := by
  intro map
  induction map with
  | nil =>
    intro _ b hb
    simp only [updateMonth, List.mem_singleton] at hb
    exact hb ▸ newBucket_good mo
  | cons c rest ih =>
    intro hinv b hb
    unfold updateMonth at hb
    by_cases hc : c.month = mo.month
    · rw [if_pos hc] at hb
      rcases List.mem_cons.mp hb with he | hmem
      · exact he ▸ mergeMonth_good c mo
      · exact hinv b (List.mem_cons_of_mem c hmem)
    · rw [if_neg hc] at hb
      rcases List.mem_cons.mp hb with he | hmem
      · exact he ▸ hinv c (List.mem_cons_self c rest)
      · exact ih (fun x hx => hinv x (List.mem_cons_of_mem c hx)) b hmem

theorem entriesFold_good :
    ∀ (entries map : List MonthBucket), (∀ b ∈ map, goodBucket b) →
      ∀ b ∈ entries.foldl updateMonth map, goodBucket b := by
  intro entries
  induction entries with
  | nil => intro map h; exact h
  | cons e rest ih =>
    intro map h
    rw [List.foldl_cons]
    exact ih (updateMonth map e) (updateMonth_good e map h)

theorem catLookup_nil (c : JStr) : catLookup [] c = none := rfl

theorem catLookup_cons (q : JStr) (a : CatAgg) (rest : List (JStr × CatAgg)) (c : JStr) :
    catLookup ((q, a) :: rest) c = if q = c then some a else catLookup rest c := by
  unfold catLookup
  by_cases h : q = c
  · simp [List.find?, h]
  · simp [List.find?, h]

theorem catBump_lookup (k : JStr) (amt : Int) (c : JStr) :
    ∀ mcat : List (JStr × CatAgg),
      catLookup (catBump mcat k amt) c =
        if c = k then
          some (match catLookup mcat k with
                | none => ⟨amt, 1⟩
                | some a => ⟨a.amount + amt, a.count + 1⟩)
        else catLookup mcat c := by
  intro mcat
  induction mcat with
  | nil =>
    show catLookup [(k, ⟨amt, 1⟩)] c = _
    rw [catLookup_cons, catLookup_nil]
    by_cases h : c = k
    · rw [if_pos h.symm, if_pos h, catLookup_nil]
    · rw [if_neg (fun hh => h hh.symm), if_neg h]
  | cons e rest ih =>
    obtain ⟨q, a⟩ := e
    unfold catBump
    by_cases hq : q = k
    · subst hq
      rw [if_pos rfl, catLookup_cons, catLookup_cons q a rest c, catLookup_cons q a rest q,
        if_pos rfl]
      by_cases hc : q = c
      · rw [if_pos hc, if_pos hc.symm]
      · rw [if_neg hc, if_neg (fun h => hc h.symm), if_neg hc]
    · rw [if_neg hq, catLookup_cons, catLookup_cons q a rest c, catLookup_cons q a rest k,
        if_neg hq]
      by_cases hqc : q = c
      · have hck : ¬ c = k := fun h => hq (hqc.trans h)
        rw [if_pos hqc, if_neg hck, if_pos hqc]
      · rw [if_neg hqc, if_neg hqc, ih]

theorem typeCount_cons (t : Transaction) (rest : List Transaction) (c : JStr) :
    typeCount (t :: rest) c = (if t.type = c then 1 else 0) + typeCount rest c := by
  unfold typeCount
  rw [List.filter_cons]
  by_cases h : t.type = c
  · simp [h]
    omega
  · simp [h]

theorem typeSum_cons (t : Transaction) (rest : List Transaction) (c : JStr) :
    typeSum (t :: rest) c = (if t.type = c then t.amount else 0) + typeSum rest c := by
  unfold typeSum
  rw [List.filter_cons]
  by_cases h : t.type = c
  · simp [h]
  · simp [h]

theorem foldl_catBump_lookup :
    ∀ (txs : List Transaction) (acc : List (JStr × CatAgg)) (c : JStr),
      catLookup (txs.foldl (fun mm t => catBump mm t.type t.amount) acc) c =
        match catLookup acc c with
        | none => if typeCount txs c = 0 then none
                  else some ⟨typeSum txs c, typeCount txs c⟩
        | some a => some ⟨a.amount + typeSum txs c, a.count + typeCount txs c⟩ := by
  intro txs
  induction txs with
  | nil =>
    intro acc c
    cases h : catLookup acc c with
    | none => simp [typeCount, typeSum, h]
    | some a => simp [typeCount, typeSum, h]
  | cons t rest ih =>
    intro acc c
    rw [List.foldl_cons, ih (catBump acc t.type t.amount) c, catBump_lookup]
    by_cases hc : c = t.type
    · rw [if_pos hc]
      cases h : catLookup acc c with
      | none =>
        have h2 : catLookup acc t.type = none := hc ▸ h
        simp only [h2, typeCount_cons, typeSum_cons, if_pos hc.symm]
        have hnz : ¬ (1 + typeCount rest c = 0) := by omega
        simp [hnz]
      | some a =>
        have h2 : catLookup acc t.type = some a := hc ▸ h
        simp only [h2, typeCount_cons, typeSum_cons, if_pos hc.symm]
        cases hr : typeCount rest c  <;> simp [CatAgg.mk.injEq] <;> omega
    · rw [if_neg hc]
      have hc2 : ¬ (t.type = c) := fun h => hc h.symm
      cases h : catLookup acc c with
      | none =>
        simp only [h, typeCount_cons, typeSum_cons, if_neg hc2]
        simp
      | some a =>
        simp only [h, typeCount_cons, typeSum_cons, if_neg hc2]
        simp

theorem buildCategories_lookup (txs : List Transaction) (c : JStr) :
    catLookup (buildCategories txs) c =
      if typeCount txs c = 0 then none
      else some ⟨typeSum txs c, typeCount txs c⟩ := by
  unfold buildCategories
  rw [foldl_catBump_lookup txs [] c]
  rfl

/-- C2 (amended): merging two or more partials yields month buckets whose
`total` is the sum of their transactions' amounts and whose category aggregates
match the sum/count of the bucket's transactions of that type; an empty input
yields `null` and a singleton input is passed through unverified. -/
theorem mergeResults_aggregates (l : List PartialResult) (a : AnalysisResult)
    (hlen : 2 ≤ l.length) (hm : mergeResults l = some a) :
    ∀ b ∈ a.months, b.total = sumAmounts b.transactions ∧
      ∀ c, catLookup b.categories c =
        if typeCount b.transactions c = 0 then none
        else some ⟨typeSum b.transactions c, typeCount b.transactions c⟩ := by
  match l with
  | [] => simp at hlen
  | [p] => simp at hlen
  | r0 :: r1 :: rest =>
    intro b hb
    have ha : mergeCore r0 (r1 :: rest) = a := Option.some.inj hm
    rw [← ha] at hb
    have hb2 : b ∈ sortMonths (foldPartials (r0 :: r1 :: rest)) := hb
    have hperm := List.perm_insertionSort
      (fun x y : MonthBucket => parseMonthValue y.month ≤ parseMonthValue x.month)
      (foldPartials (r0 :: r1 :: rest))
    have hb3 : b ∈ foldPartials (r0 :: r1 :: rest) := hperm.mem_iff.mp hb2
    have hgood : goodBucket b := by
      rw [foldPartials_eq] at hb3
      exact entriesFold_good ((r0 :: r1 :: rest).flatMap (·.months)) []
        (fun x hx => absurd hx (List.not_mem_nil x)) b hb3
    refine ⟨hgood.1, fun c => ?_⟩
    rw [hgood.2, buildCategories_lookup]

/-- Fallback bucket for indexing into a concrete month list. -/
def emptyBucket : MonthBucket :=
  { month := [], total := 0, categories := [], transactions := [] }

/-- The first month bucket of the concrete two-partial merge. -/
def witnessBucket : MonthBucket := (mergeCore achPartial [otherPartial]).months.getD 0 emptyBucket

/-- Witness for the amended C2 theorem: the concrete January bucket of the
two-partial merge satisfies the total and category invariants. -/
theorem mergeResults_aggregates_witness :
    witnessBucket.total = sumAmounts witnessBucket.transactions ∧
    catLookup witnessBucket.categories (strOf "ACH Deposit") =
      (if typeCount witnessBucket.transactions (strOf "ACH Deposit") = 0 then none
       else some ⟨typeSum witnessBucket.transactions (strOf "ACH Deposit"),
                  typeCount witnessBucket.transactions (strOf "ACH Deposit")⟩) := by
  have h := mergeResults_aggregates [achPartial, otherPartial]
    (mergeCore achPartial [otherPartial]) (by decide) rfl
  have hb := h witnessBucket (by decide)
  exact ⟨hb.1, hb.2 (strOf "ACH Deposit")⟩

/-- The chunk loop `for (let i = 0; i < totalPages; i += chunkSize)` of the
splitting stage (`route.js` lines 32-43), emitting each chunk's page range
`[i, min(i + 12, totalPages))`.  The structural fuel bounds the number of
iterations; fuel `totalPages` suffices whenever `totalPages ≥ 1` since every
iteration advances `i` by 12. -/
def chunkLoop : Nat → Nat → Nat → List (Nat × Nat)
  | 0, _, _ => []
  | fuel + 1, i, total =>
    if i < total then (i, min (i + 12) total) :: chunkLoop fuel (i + 12) total
    else []

/-- The splitting stage (`route.js` lines 23-43): a document of at most 12
pages is processed whole as a single chunk; otherwise the loop splits it. -/
def splitRanges (totalPages : Nat) : List (Nat × Nat) :=
  if totalPages ≤ 12 then [(0, totalPages)]
  else chunkLoop totalPages 0 totalPages

/-- Page indices of one chunk range (`Array.from({length: end - i}, (_, j) => i + j)`). -/
def rangePages (r : Nat × Nat) : List Nat := List.range' r.1 (r.2 - r.1)

/-- Concatenated page indices of a chunk list, in order. -/
def chunkPages (rs : List (Nat × Nat)) : List Nat := rs.flatMap rangePages

theorem chunkLoop_spec :
    ∀ (fuel i total : Nat), total ≤ i + 12 * fuel →
      chunkPages (chunkLoop fuel i total) = List.range' i (total - i) ∧
      (chunkLoop fuel i total).length = (total - i + 11) / 12 := by
  intro fuel
  induction fuel with
  | zero =>
    intro i total hle
    simp only [Nat.mul_zero, Nat.add_zero] at hle
    have h0 : total - i = 0 := by omega
    simp [chunkLoop, chunkPages, h0]
  | succ fuel ih =>
    intro i total hle
    unfold chunkLoop
    by_cases hi : i < total
    · rw [if_pos hi]
      have hrec := ih (i + 12) total (by omega)
      constructor
      · show rangePages (i, min (i + 12) total) ++
          chunkPages (chunkLoop fuel (i + 12) total) = List.range' i (total - i)
        rw [hrec.1]
        unfold rangePages
        by_cases hd : total ≤ i + 12
        · have h1 : min (i + 12) total = total := by omega
          have h2 : total - (i + 12) = 0 := by omega
          rw [h1, h2]
          simp
        · have h1 : min (i + 12) total = i + 12 := by omega
          rw [h1]
          have h2 : (i, i + 12).2 - (i, i + 12).1 = 12 := by simp
          have := List.range'_append i 12 (total - (i + 12)) 1
          simp only [Nat.one_mul] at this
          have h3 : total - (i + 12) + 12 = total - i := by omega
          rw [h3] at this
          simpa using this
      · show (chunkLoop fuel (i + 12) total).length + 1 = (total - i + 11) / 12
        rw [hrec.2]
        omega
    · rw [if_neg hi]
      have h0 : total - i = 0 := by omega
      simp [chunkPages, h0]

/-- C3, counterexample: a 0-page document is handled by the small-document
path as one whole-document chunk, so the chunk count is 1 rather than
`ceil(0/12) = 0`. -/
theorem split_counterexample :
    (splitRanges 0).length = 1 ∧ (0 + 11) / 12 = 0 ∧ splitRanges 0 = [(0, 0)] := by
  decide

/-- C3 (amended): for every page count `P ≥ 1` the splitting stage produces
`ceil(P/12)` chunks whose page ranges are contiguous, non-overlapping, in the
original page order, with union exactly `[0, P)`; whenever `P ≤ 12` it produces
exactly one chunk equal to the whole document.  (The degenerate `P = 0` case
yields one whole-document chunk, not 0 chunks.) -/
theorem splitRanges_spec (P : Nat) (hP : 1 ≤ P) :
    chunkPages (splitRanges P) = List.range P ∧
    (splitRanges P).length = (P + 11) / 12 ∧
    (P ≤ 12 → splitRanges P = [(0, P)]) := by
  unfold splitRanges
  by_cases h : P ≤ 12
  · rw [if_pos h]
    refine ⟨?_, ?_, fun _ => rfl⟩
    · simp [chunkPages, rangePages, List.range_eq_range']
    · show 1 = (P + 11) / 12
      omega
  · rw [if_neg h]
    have hmain := chunkLoop_spec P 0 P (by omega)
    refine ⟨?_, ?_, fun hc => absurd hc h⟩
    · rw [hmain.1]
      simp [List.range_eq_range']
    · rw [hmain.2]
      omega

/-- Witness for the amended C3 theorem at the 25-page document of Scenario B. -/
theorem splitRanges_spec_witness :
    chunkPages (splitRanges 25) = List.range 25 ∧
    (splitRanges 25).length = (25 + 11) / 12 ∧
    (25 ≤ 12 → splitRanges 25 = [(0, 25)]) :=
  splitRanges_spec 25 (by decide)

/-- Outcome of one chunk's submission attempt (`route.js` lines 52-67): a
usable PartialResult, or one of the caught failure modes — a rejected fetch, a
non-success response (thrown inside `processSingleChunk` and caught by the
per-chunk handler), or a response body that fails JSON parsing. -/
inductive ChunkOutcome where
  | success (r : PartialResult)
  | networkError
  | apiError
  | parseError
deriving DecidableEq

/-- The usable PartialResult of an outcome, if any (`chunkResult.ok` holding a
`{success: true, data}` body). -/
def usable : ChunkOutcome → Option PartialResult
  | .success r => some r
  | _ => none

/-- The `results` accumulation of the chunk loop (lines 47-73): every chunk is
attempted in order; a failed chunk contributes nothing and the loop
continues. -/
def collectResults : List ChunkOutcome → List PartialResult
  | [] => []
  | o :: rest =>
    match usable o with
    | some r => r :: collectResults rest
    | none => collectResults rest

/-- The tail of the chunked POST handler (lines 75-85): throw the fatal
`'No chunks processed successfully'` error when nothing usable was collected,
otherwise merge the collected partials. -/
def runChunkedPipeline (outcomes : List ChunkOutcome) : Except JStr AnalysisResult :=
  match collectResults outcomes with
  | [] => .error (strOf "No chunks processed successfully")
  | r :: rs => .ok (mergeCore r rs)

theorem collectResults_eq_nil_iff :
    ∀ outcomes : List ChunkOutcome,
      collectResults outcomes = [] ↔ ∀ o ∈ outcomes, usable o = none := by
  intro outcomes
  induction outcomes with
  | nil => simp [collectResults]
  | cons o rest ih =>
    unfold collectResults
    cases h : usable o with
    | some r =>
      simp only [List.mem_cons]
      constructor
      · intro hc; exact absurd hc (List.cons_ne_nil r _)
      · intro hall
        rw [hall o (Or.inl rfl)] at h
        exact Option.noConfusion h
    | none =>
      rw [ih]
      constructor
      · intro hall o' ho'
        rcases List.mem_cons.mp ho' with he | hm
        · exact he ▸ h
        · exact hall o' hm
      · intro hall o' ho'
        exact hall o' (List.mem_cons_of_mem o ho')

/-- C4: the pipeline surfaces the fatal no-usable-results error exactly when
every attempted chunk failed; any single chunk failure merely contributes
nothing (the loop is not aborted), and every successful chunk's result is
collected no matter which other chunks fail. -/
theorem pipeline_noUsableResults (outcomes : List ChunkOutcome) :
    ((runChunkedPipeline outcomes = .error (strOf "No chunks processed successfully")) ↔
      ∀ o ∈ outcomes, usable o = none) ∧
    (∀ (o : ChunkOutcome) (rest : List ChunkOutcome), usable o = none →
      collectResults (o :: rest) = collectResults rest) ∧
    (∀ o ∈ outcomes, ∀ r, usable o = some r → r ∈ collectResults outcomes) := by
  refine ⟨?_, ?_, ?_⟩
  · unfold runChunkedPipeline
    cases hc : collectResults outcomes with
    | nil =>
      simp only []
      rw [← collectResults_eq_nil_iff outcomes, hc]
      simp
    | cons r rs =>
      simp only []
      constructor
      · intro he; exact Except.noConfusion he
      · intro hall
        have : collectResults outcomes = [] := (collectResults_eq_nil_iff outcomes).mpr hall
        rw [this] at hc
        exact List.noConfusion hc
  · intro o rest h
    conv_lhs => rw [collectResults, h]
  · induction outcomes with
    | nil => intro o ho; exact absurd ho (List.not_mem_nil o)
    | cons p rest ih =>
      intro o ho r hr
      unfold collectResults
      rcases List.mem_cons.mp ho with he | hm
      · rw [← he, hr]
        exact List.mem_cons_self r _
      · cases hu : usable p with
        | some q => exact List.mem_cons_of_mem q (ih o hm r hr)
        | none => exact ih o hm r hr

/-- Witness for the C4 theorem at concrete outcome lists: an all-failed run
surfaces the fatal error; a failure followed by a success is skipped without
losing the success. -/
theorem pipeline_noUsableResults_witness :
    runChunkedPipeline [ChunkOutcome.networkError, ChunkOutcome.parseError] =
      .error (strOf "No chunks processed successfully") ∧
    collectResults [ChunkOutcome.networkError, ChunkOutcome.success achPartial] =
      collectResults [ChunkOutcome.success achPartial] ∧
    achPartial ∈ collectResults [ChunkOutcome.networkError, ChunkOutcome.success achPartial] := by
  refine ⟨?_, ?_, ?_⟩
  · exact (pipeline_noUsableResults [ChunkOutcome.networkError, ChunkOutcome.parseError]).1.mpr
      (by decide)
  · exact (pipeline_noUsableResults
      [ChunkOutcome.networkError, ChunkOutcome.success achPartial]).2.1
      ChunkOutcome.networkError [ChunkOutcome.success achPartial] rfl
  · exact (pipeline_noUsableResults
      [ChunkOutcome.networkError, ChunkOutcome.success achPartial]).2.2
      (ChunkOutcome.success achPartial) (by decide) achPartial rfl

/-- Observable scheduling events of the chunk loop: issuing chunk `i`'s
submission, or awaiting the fixed inter-chunk delay (in milliseconds). -/
inductive SchedEvent where
  | submit (i : Nat)
  | delay (ms : Nat)
deriving DecidableEq

/-- Events of iteration `i` of the loop over `n` chunks (lines 49-73): submit
chunk `i`, then await the 90000 ms delay exactly when `i < n - 1`. -/
def chunkIteration (n i : Nat) : List SchedEvent :=
  SchedEvent.submit i :: (if i < n - 1 then [SchedEvent.delay 90000] else [])

/-- The full event trace of a sequential run over `n` chunks, in order. -/
def scheduleTrace (n : Nat) : List SchedEvent :=
  (List.range n).flatMap (chunkIteration n)

/-- Whether an event is a delay. -/
def isDelayEvent : SchedEvent → Bool
  | .delay _ => true
  | _ => false

/-- Whether an event is a submission. -/
def isSubmitEvent : SchedEvent → Bool
  | .submit _ => true
  | _ => false

theorem flatMap_congr_mem {α β : Type} (f g : α → List β) :
    ∀ l : List α, (∀ a ∈ l, f a = g a) → l.flatMap f = l.flatMap g := by
  intro l
  induction l with
  | nil => intro _; rfl
  | cons a rest ih =>
    intro h
    rw [List.flatMap_cons, List.flatMap_cons, h a (List.mem_cons_self a rest),
      ih (fun x hx => h x (List.mem_cons_of_mem a hx))]

theorem pairTrace_filter_delay :
    ∀ m : Nat,
      (((List.range m).flatMap
          (fun i => [SchedEvent.submit i, SchedEvent.delay 90000])).filter isDelayEvent).length
        = m := by
  intro m
  induction m with
  | zero => rfl
  | succ m ih =>
    rw [List.range_succ, List.flatMap_append, List.filter_append, List.length_append, ih]
    rfl

theorem pairTrace_filter_submit :
    ∀ m : Nat,
      ((List.range m).flatMap
          (fun i => [SchedEvent.submit i, SchedEvent.delay 90000])).filter isSubmitEvent
        = (List.range m).map SchedEvent.submit := by
  intro m
  induction m with
  | zero => rfl
  | succ m ih =>
    rw [List.range_succ, List.flatMap_append, List.filter_append, ih, List.map_append]
    rfl

/-- C5: over `n ≥ 1` chunks the trace is exactly `submit 0, delay, submit 1,
delay, …, submit (n-1)` — submissions strictly sequential in chunk order, the
fixed 90-second delay exactly between consecutive submissions, hence `n - 1`
delays, none after the final submission (a single-chunk run has no delay). -/
theorem scheduler_trace (n : Nat) (h : 1 ≤ n) :
    scheduleTrace n =
      ((List.range (n - 1)).flatMap (fun i => [SchedEvent.submit i, SchedEvent.delay 90000]))
        ++ [SchedEvent.submit (n - 1)] ∧
    ((scheduleTrace n).filter isDelayEvent).length = n - 1 ∧
    (scheduleTrace n).filter isSubmitEvent = (List.range n).map SchedEvent.submit ∧
    (scheduleTrace n).getLast? = some (SchedEvent.submit (n - 1)) := by
  obtain ⟨m, rfl⟩ : ∃ m, n = m + 1 := ⟨n - 1, by omega⟩
  have hchar : scheduleTrace (m + 1) =
      ((List.range m).flatMap (fun i => [SchedEvent.submit i, SchedEvent.delay 90000]))
        ++ [SchedEvent.submit m] := by
    unfold scheduleTrace
    rw [List.range_succ, List.flatMap_append]
    have h1 : (List.range m).flatMap (chunkIteration (m + 1)) =
        (List.range m).flatMap (fun i => [SchedEvent.submit i, SchedEvent.delay 90000]) := by
      apply flatMap_congr_mem
      intro i hi
      have : i < m := List.mem_range.mp hi
      unfold chunkIteration
      rw [if_pos (by omega)]
    have h2 : ([m] : List Nat).flatMap (chunkIteration (m + 1)) = [SchedEvent.submit m] := by
      show chunkIteration (m + 1) m ++ [] = [SchedEvent.submit m]
      unfold chunkIteration
      rw [if_neg (by omega)]
      rfl
    rw [h1, h2]
  have hm1 : m + 1 - 1 = m := by omega
  rw [hm1, hchar]
  refine ⟨rfl, ?_, ?_, List.getLast?_concat _⟩
  · rw [List.filter_append, List.length_append, pairTrace_filter_delay]
    rfl
  · rw [List.filter_append, pairTrace_filter_submit, List.range_succ, List.map_append]
    rfl

/-- Witness for the C5 theorem: three chunks produce exactly two delays
(Scenario B) and a single chunk produces none (Scenario A). -/
theorem scheduler_trace_witness :
    ((scheduleTrace 3).filter isDelayEvent).length = 2 ∧
    ((scheduleTrace 1).filter isDelayEvent).length = 0 :=
  ⟨(scheduler_trace 3 (by decide)).2.1, (scheduler_trace 1 (by decide)).2.1⟩
